import Mathlib

/-!
Verification of the mini-git version-control core (object store, commit
graph, directory tree, LCS diff, three-way merge) against its
natural-language specification.  Each Python function of the core is
shallowly embedded as an executable Lean definition; stateful code
(filesystem object store, while-loops over parent pointers) becomes
explicit state passing with a fuel parameter for loops whose termination
depends on the stored data.
-/

namespace MiniGit

open List

/-! ## Merge engine (src/merge.py) -/

/-- Record of a merge conflict (class `MergeConflict` in merge.py);
`format_conflict` is presentation only and not modelled. -/
structure MergeConflict where
  file_path : String
  base : String
  ours : String
  theirs : String
deriving DecidableEq, Repr

/-- `three_way_merge(base, ours, theirs)` from merge.py: returns
`(merged_content, has_conflict)`. -/
def three_way_merge (base ours theirs : String) : String × Bool :=
  if ours = theirs then (ours, false)
  else if ours = base then (theirs, false)
  else if theirs = base then (ours, false)
  else ("", true)

/-- `merge_files(file_path, base_content, ours_content, theirs_content)`
from merge.py.  `none` models Python `None` (file absent on that side);
returns `(merged_content, conflict)`. -/
def merge_files (file_path : String)
    (base_content ours_content theirs_content : Option String) :
    Option String × Option MergeConflict :=
  match base_content with
  | none =>
    match ours_content, theirs_content with
    | none, t => (t, none)
    | some o, none => (some o, none)
    | some o, some t =>
      if o = t then (some o, none)
      else (none, some ⟨file_path, "", o, t⟩)
  | some b =>
    match ours_content, theirs_content with
    | none, none => (none, none)
    | none, some t =>
      if t = b then (none, none) else (none, some ⟨file_path, b, "", t⟩)
    | some o, none =>
      if o = b then (none, none) else (none, some ⟨file_path, b, o, ""⟩)
    | some o, some t =>
      let r := three_way_merge b o t
      if r.2 then (none, some ⟨file_path, b, o, t⟩) else (some r.1, none)

/-- Class `MergeResult` from merge.py: accumulated conflicts, merged
files (path, content) in insertion order, and the success flag. -/
structure MergeResult where
  conflicts : List MergeConflict
  merged_files : List (String × String)
  success : Bool
deriving DecidableEq, Repr

/-- `MergeResult.__init__`. -/
def emptyMergeResult : MergeResult := ⟨[], [], true⟩

/-- `MergeResult.add_conflict`. -/
def add_conflict (r : MergeResult) (c : MergeConflict) : MergeResult :=
  { r with conflicts := r.conflicts ++ [c], success := false }

/-- `MergeResult.add_merged_file`. -/
def add_merged_file (r : MergeResult) (path content : String) : MergeResult :=
  { r with merged_files := r.merged_files ++ [(path, content)] }

/-- `perform_merge(base_files, ours_files, theirs_files)` from merge.py.
The Python code iterates over the set-union of the three dicts' keys in
unspecified set order; here the union is passed explicitly as the list
`all_paths`, and the three dicts become lookup functions
(`dict.get`, returning `none` when the path is absent). -/
def perform_merge (all_paths : List String)
    (base_files ours_files theirs_files : String → Option String) :
    MergeResult :=
  all_paths.foldl (fun result path =>
    match merge_files path (base_files path) (ours_files path) (theirs_files path) with
    | (_, some c) => add_conflict result c
    | (some m, none) => add_merged_file result path m
    | (none, none) => result) emptyMergeResult

/-- Abstract per-file outcome of the merge state machine. -/
inductive MergeOutcome where
  | keep (content : String)
  | drop
  | conflict
deriving DecidableEq, Repr

/-- Project the raw result of `merge_files` to its abstract outcome. -/
def outcomeOf : Option String × Option MergeConflict → MergeOutcome
  | (_, some _) => .conflict
  | (some c, none) => .keep c
  | (none, none) => .drop

/-- The spec's eight-rule state machine for one file (spec §4.5), written
from the spec's words.  The all-three-absent triple is not covered by the
eight rules (it cannot arise from a key-union iteration); it is mapped to
`drop`, which is what the code does on that input. -/
def mergeRules : Option String → Option String → Option String → MergeOutcome
  | none, none, none => .drop
  | none, some o, none => .keep o
  | none, none, some t => .keep t
  | none, some o, some t => if o = t then .keep o else .conflict
  | some _, none, none => .drop
  | some b, none, some t => if t = b then .drop else .conflict
  | some b, some o, none => if o = b then .drop else .conflict
  | some b, some o, some t =>
    if o = t then .keep o
    else if o = b then .keep t
    else if t = b then .keep o
    else .conflict

end MiniGit

namespace MiniGit

/-- C1: for every file path and every triple (base, ours, theirs) of
optional contents, `merge_files` classifies the file exactly per the
spec's eight-rule state machine (take identical/unilateral additions,
silently drop both-deleted and delete-with-other-side-unchanged,
conflict on divergent addition, delete-vs-modify and divergent edit, and
for three present versions take ours when ours = theirs, take theirs
when ours = base, take ours when theirs = base, else conflict). -/
theorem merge_files_matches_spec_rules
    (path : String) (b o t : Option String) :
    outcomeOf (merge_files path b o t) = mergeRules b o t := by
  cases b <;> cases o <;> cases t <;>
    simp only [merge_files, mergeRules, three_way_merge, outcomeOf] <;>
    repeat' split
  all_goals first
    | rfl
    | simp_all [outcomeOf]

/-! ## Splitting helpers (Python `str.split` / `str.splitlines`) -/

/-- Split a character list at every occurrence of `sep`, Python
`str.split(sep)` style: `"" → [""]`, separators at the ends and doubled
separators produce empty segments. -/
def splitCharAux (sep : Char) : List Char → List (List Char)
  | [] => [[]]
  | c :: cs =>
    let r := splitCharAux sep cs
    if c = sep then [] :: r
    else
      match r with
      | [] => [[c]]
      | g :: gs => (c :: g) :: gs

/-- Python `s.split(sep)` for a one-character separator (structural, so
that it evaluates in the kernel; `String.splitOn` is defined by
well-founded recursion and does not). -/
def pySplit (s : String) (sep : Char) : List String :=
  (splitCharAux sep s.data).map String.mk

/-! ## Directory tree (src/tree.py) -/

/-- Node of the directory tree (class `TreeNode` in tree.py): a name,
the file flag (`is_file`), the optional content hash (files only), and
the children.  The Python children dict maps `child.name` to the child
and preserves insertion order; since the key always equals the child's
name it is modelled as an insertion-ordered list of child nodes. -/
inductive TreeNode where
  | mk (name : String) (isFile : Bool) (contentHash : Option String)
      (children : List TreeNode)

def TreeNode.name : TreeNode → String
  | .mk n _ _ _ => n

def TreeNode.isFile : TreeNode → Bool
  | .mk _ f _ _ => f

def TreeNode.contentHash : TreeNode → Option String
  | .mk _ _ h _ => h

def TreeNode.children : TreeNode → List TreeNode
  | .mk _ _ _ cs => cs

/-- Python dict insert `children[child.name] = child`: replace the entry
with the same key in place (dicts keep the original position on
overwrite), else append. -/
def replaceByName : List TreeNode → TreeNode → List TreeNode
  | [], c => [c]
  | x :: xs, c => if x.name = c.name then c :: xs else x :: replaceByName xs c

/-- `TreeNode.add_child`. -/
def add_child : TreeNode → TreeNode → TreeNode
  | .mk n isF ch cs, c => .mk n isF ch (replaceByName cs c)

/-- `TreeNode.get_child`. -/
def get_child (node : TreeNode) (nm : String) : Option TreeNode :=
  node.children.find? (fun c => decide (c.name = nm))

/-- The dictionary produced by `TreeNode.to_dict`: name, `is_file`,
an optional `content_hash` entry and an optional `children` entry
(an omitted entry is modelled by `none` / `[]`, which is exactly what
`from_dict` reads back via `dict.get`). -/
inductive TreeData where
  | mk (name : String) (isFile : Bool) (contentHash : Option String)
      (children : List TreeData)

mutual

/-- `TreeNode.to_dict`: a file serializes name, flag and content hash
(children are NOT serialized); a directory serializes name, flag and its
children (no content hash). -/
def to_dict : TreeNode → TreeData
  | .mk n true ch _ => .mk n true ch []
  | .mk n false _ cs => .mk n false none (toDictList cs)

def toDictList : List TreeNode → List TreeData
  | [] => []
  | c :: cs => to_dict c :: toDictList cs

end

/-- The `for child_data in data['children'].values(): node.add_child(...)`
loop of `TreeNode.from_dict`. -/
def addChildren (n : TreeNode) (cs : List TreeNode) : TreeNode :=
  cs.foldl add_child n

mutual

/-- `TreeNode.from_dict`: rebuild the node; children are reattached only
for directories (`if not node.is_file`). -/
def from_dict : TreeData → TreeNode
  | .mk n isF ch cs =>
    if isF then TreeNode.mk n isF ch []
    else addChildren (TreeNode.mk n isF ch []) (fromDictList cs)

def fromDictList : List TreeData → List TreeNode
  | [] => []
  | d :: ds => from_dict d :: fromDictList ds

end

/-- Root of a fresh `DirectoryTree`: directory named ".". -/
def emptyRoot : TreeNode := .mk "." false none []

/-- The directory-walking loop of `DirectoryTree.add_file`: descend
through `parts[:-1]` creating missing directories, then attach the file
leaf `parts[-1]`.  In Python the walk mutates shared nodes in place;
here the updated child is written back with `add_child`, which replaces
the entry of the same name at its position — the same result. -/
def addFileParts (node : TreeNode) : List String → String → String → TreeNode
  | [], fname, ch => add_child node (.mk fname true (some ch) [])
  | d :: rest, fname, ch =>
    let child := match get_child node d with
      | some c => c
      | none => TreeNode.mk d false none []
    add_child node (addFileParts child rest fname ch)

/-- Path components: Python `path.split('/')`. -/
def comps (path : String) : List String := pySplit path (Char.ofNat 47)

/-- `DirectoryTree.add_file(path, content_hash)`.  `path.split('/')` in
Python is never empty; the `[]` branch (identity) is unreachable and
present only to make the match total. -/
def add_file (tree : TreeNode) (path ch : String) : TreeNode :=
  match comps path with
  | [] => tree
  | p :: ps => addFileParts tree ((p :: ps).dropLast)
      ((p :: ps).getLast (List.cons_ne_nil p ps)) ch

/-- The component walk of `DirectoryTree.get_file_hash`. -/
def getFileHashParts : TreeNode → List String → Option String
  | node, [] => if node.isFile then node.contentHash else none
  | node, p :: ps =>
    match get_child node p with
    | none => none
    | some c => getFileHashParts c ps

/-- `DirectoryTree.get_file_hash(path)`. -/
def get_file_hash (tree : TreeNode) (path : String) : Option String :=
  getFileHashParts tree (comps path)

mutual

/-- The `dfs` helper of `DirectoryTree.list_all_files`. -/
def listFilesAux : TreeNode → String → List String
  | .mk _ isF _ cs, path =>
    if isF then [path] else listFilesList cs path

def listFilesList : List TreeNode → String → List String
  | [], _ => []
  | c :: cs, path =>
    listFilesAux c (if path = "" then c.name else path ++ "/" ++ c.name) ++
      listFilesList cs path

end

/-- `DirectoryTree.list_all_files()`. -/
def list_all_files (tree : TreeNode) : List String := listFilesAux tree ""

/-- `DirectoryTree` trees are built from pairs via `add_file`. -/
def buildTree (pairs : List (String × String)) : TreeNode :=
  pairs.foldl (fun t pr => add_file t pr.1 pr.2) emptyRoot

/-! ## Tree well-formedness (proof infrastructure for the tree claims) -/

mutual

/-- A tree node as `DirectoryTree` construction produces them: file
nodes have no children, directory nodes carry no content hash, and
sibling names are distinct (they are Python dict keys). -/
def wfNode : TreeNode → Bool
  | .mk _ isF ch cs =>
    (!isF || cs.isEmpty) && (isF || ch.isNone) &&
    decide ((cs.map TreeNode.name).Nodup) && wfList cs

def wfList : List TreeNode → Bool
  | [] => true
  | c :: cs => wfNode c && wfList cs

end

/-- Does a file node sit at component path `q`? -/
def isFileAt : TreeNode → List String → Bool
  | node, [] => node.isFile
  | node, p :: ps =>
    match get_child node p with
    | none => false
    | some c => isFileAt c ps

/-- Walking the components `ds` from `node` never meets an existing
file node (missing children are fine — `add_file` creates them as
directories). -/
def dirsOnly : TreeNode → List String → Bool
  | _, [] => true
  | node, d :: ds =>
    match get_child node d with
    | none => true
    | some c => !c.isFile && dirsOnly c ds

/-- No path's component list is a prefix of another's (in particular
all paths are distinct).  This is the claim's "no path is a prefix of
another path" hypothesis, read on path components; it is implied by
string-prefix freedom since a component-prefix is a string prefix. -/
def PrefixFree (pairs : List (String × String)) : Prop :=
  pairs.Pairwise (fun a b =>
    ¬ (comps a.1 <+: comps b.1) ∧ ¬ (comps b.1 <+: comps a.1))

/-! ## Object store (src/hash_object.py) -/

/-- Errors surfaced by the store and the commit graph.
`objectNotFound` models the `FileNotFoundError("Object ... not found")`
of `HashObject.retrieve_object`; `outOfFuel` is an artifact of embedding
unbounded `while` loops with a fuel parameter and corresponds to no
code path (all theorems supply sufficient fuel). -/
inductive VcsError where
  | objectNotFound (h : String)
  | outOfFuel
deriving DecidableEq, Repr

/-- The object store state (class `HashObject`): the files under
`objects_dir`, keyed by the full digest.  The two-character sharding of
the directory layout is an implementation detail with no observable
effect and is not modelled.  Payloads (`pickle.dumps` output) are
modelled as `String`. -/
structure HashStore where
  objects : List (String × String)
deriving DecidableEq, Repr

/-- `HashObject.store_object(obj)`: hash the serialized payload, write
it only if no object file with that digest exists, and return the
digest.  The digest function (`hash_content`, SHA-1 of the pickled
bytes) is a parameter.  Returns the updated store and the digest. -/
def store_object (hashFn : String → String) (store : HashStore)
    (payload : String) : HashStore × String :=
  let h := hashFn payload
  if (store.objects.lookup h).isSome then (store, h)
  else ({ objects := store.objects ++ [(h, payload)] }, h)

/-- `HashObject.retrieve_object(obj_hash)`: the payload when present,
`FileNotFoundError` (modelled as `objectNotFound`) when absent. -/
def retrieve_object (store : HashStore) (h : String) :
    Except VcsError String :=
  match store.objects.lookup h with
  | some v => .ok v
  | none => .error (.objectNotFound h)

/-- `HashObject.object_exists(obj_hash)`. -/
def object_exists (store : HashStore) (h : String) : Bool :=
  (store.objects.lookup h).isSome

/-! ## Commit graph (src/commit.py) -/

/-- A commit node (class `Commit`): tree hash, optional parent hash,
message, author, timestamp (`datetime` modelled as an opaque `Nat`),
and the `hash` attribute that is `None` until set by storage or
retrieval. -/
structure Commit where
  tree_hash : String
  parent_hash : Option String
  message : String
  author : String
  timestamp : Nat
  hash : Option String
deriving DecidableEq, Repr

/-- The commit-level view of the object store: retrieving a hash either
yields the deserialized `Commit` or fails; this abstracts
`HashObject.retrieve_object` plus unpickling. -/
def CommitStore := String → Option Commit

/-- `CommitHistory.get_commit(commit_hash)`: retrieve and stamp
`commit.hash = commit_hash`; a missing digest propagates the store's
not-found failure. -/
def get_commit (store : CommitStore) (h : String) : Except VcsError Commit :=
  match store h with
  | some c => .ok { c with hash := some h }
  | none => .error (.objectNotFound h)

/-- First loop of `CommitHistory.find_common_ancestor`: walk parent
links from `current`, accumulating every hash visited (the Python
`ancestors1` set, kept here as the list of hashes in walk order).  The
hash is added before `get_commit` is called, exactly as in the code. -/
def collectAncestors (store : CommitStore) :
    Nat → Option String → Except VcsError (List String)
  | _, none => .ok []
  | 0, some _ => .error .outOfFuel
  | fuel + 1, some h =>
    match store h with
    | none => .error (.objectNotFound h)
    | some c =>
      match collectAncestors store fuel c.parent_hash with
      | .error e => .error e
      | .ok rest => .ok (h :: rest)

/-- Second loop of `CommitHistory.find_common_ancestor`: walk from
`current` and return the first hash in `anc`; membership is tested
before the commit is retrieved, as in the code. -/
def findFirstShared (store : CommitStore) (anc : List String) :
    Nat → Option String → Except VcsError (Option String)
  | _, none => .ok none
  | 0, some _ => .error .outOfFuel
  | fuel + 1, some h =>
    if h ∈ anc then .ok (some h)
    else
      match store h with
      | none => .error (.objectNotFound h)
      | some c => findFirstShared store anc fuel c.parent_hash

/-- `CommitHistory.find_common_ancestor(commit1_hash, commit2_hash)`. -/
def find_common_ancestor (store : CommitStore) (fuel : Nat)
    (h1 h2 : String) : Except VcsError (Option String) :=
  match collectAncestors store fuel (some h1) with
  | .error e => .error e
  | .ok anc1 => findFirstShared store anc1 fuel (some h2)

/-- `CommitHistory.get_commit_history(commit_hash, max_count)`: follow
parent links appending commits; the loop breaks when
`max_count and count >= max_count` — note that Python truthiness makes
`max_count = 0` falsy, i.e. unlimited.  `count` is the running counter
(0 at the top-level call). -/
def get_commit_history (store : CommitStore) :
    Nat → Option String → Option Nat → Nat → Except VcsError (List Commit)
  | _, none, _, _ => .ok []
  | 0, some _, _, _ => .error .outOfFuel
  | fuel + 1, some h, max_count, count =>
    if (match max_count with
        | some m => decide (m ≠ 0 ∧ m ≤ count)
        | none => false) then
      .ok []
    else
      match store h with
      | none => .error (.objectNotFound h)
      | some c =>
        match get_commit_history store fuel c.parent_hash max_count (count + 1) with
        | .error e => .error e
        | .ok rest => .ok ({ c with hash := some h } :: rest)

/-- `CommitHistory.get_commit_count(commit_hash)`. -/
def get_commit_count (store : CommitStore) :
    Nat → Option String → Except VcsError Nat
  | _, none => .ok 0
  | 0, some _ => .error .outOfFuel
  | fuel + 1, some h =>
    match store h with
    | none => .error (.objectNotFound h)
    | some c =>
      match get_commit_count store fuel c.parent_hash with
      | .error e => .error e
      | .ok n => .ok (n + 1)

/-! ## Diff engine (src/diff.py) -/

/-- A line of diff output (class `DiffLine`): `line_type` is the Python
one-character string `"+"`, `"-"` or `" "`; `line_num` is the line
number in the original file (0 for additions). -/
structure DiffLine where
  line_type : String
  content : String
  line_num : Nat
deriving DecidableEq, Repr

/-- Row `i+1` of the LCS table as a function of the previous row
(structural helper for `lcsTable`). -/
def lcsRowAux (l1 l2 : List String) (prev : Nat → Nat) (i : Nat) :
    Nat → Nat
  | 0 => 0
  | j + 1 =>
    if l1.getD i "" = l2.getD j "" then prev j + 1
    else max (prev (j + 1)) (lcsRowAux l1 l2 prev i j)

/-- The DP table of `compute_lcs_length`: `lcsTable l1 l2 i j` is
`dp[i][j]`, the LCS length of the first `i` lines of `l1` and the first
`j` lines of `l2`, filled by the standard recurrence (match → diagonal
+ 1, mismatch → max of up/left).  Written with nested structural
recursion (row by row, like the Python fill loop) so that it evaluates
in the kernel; the recurrence itself holds by `rfl` below. -/
def lcsTable (l1 l2 : List String) : Nat → Nat → Nat
  | 0, _ => 0
  | i + 1, j => lcsRowAux l1 l2 (lcsTable l1 l2 i) i j

/-- Row 0 of the backtracking (`i = 0`): only additions remain. -/
def backtrackRow0 (l2 : List String) : Nat → List DiffLine
  | 0 => []
  | j + 1 => backtrackRow0 l2 j ++ [⟨"+", l2.getD j "", 0⟩]

/-- Row `i+1` of the backtracking as a function of row `i`
(structural helper for `backtrack_diff`). -/
def backtrackRow (l1 l2 : List String) (prev : Nat → List DiffLine)
    (i : Nat) : Nat → List DiffLine
  | 0 => prev 0 ++ [⟨"-", l1.getD i "", i + 1⟩]
  | j + 1 =>
    if l1.getD i "" = l2.getD j "" then
      prev j ++ [⟨" ", l1.getD i "", i + 1⟩]
    else if lcsTable l1 l2 (i + 1) j ≥ lcsTable l1 l2 i (j + 1) then
      backtrackRow l1 l2 prev i j ++ [⟨"+", l2.getD j "", 0⟩]
    else
      prev (j + 1) ++ [⟨"-", l1.getD i "", i + 1⟩]

/-- `backtrack_diff(text1, text2, dp)` viewed from position `(i, j)`:
the Python while-loop appends in reverse and reverses at the end, which
is the same as this forward recursion appending the entry for `(i, j)`
after the entries for the smaller position.  On a match emit unchanged
and step diagonally, else prefer an addition from `l2` when
`dp[i][j-1] >= dp[i-1][j]`, else a removal from `l1`. -/
def backtrack_diff (l1 l2 : List String) : Nat → Nat → List DiffLine
  | 0, j => backtrackRow0 l2 j
  | i + 1, j => backtrackRow l1 l2 (backtrack_diff l1 l2 i) i j

/-- Python `text.splitlines()` restricted to `"\n"` separators (the
only separator this code base ever produces): split on newlines and
drop the segment after a trailing newline; the empty text gives no
lines (`if text1 else []` in `compute_diff`). -/
def splitlines (s : String) : List String :=
  if s = "" then []
  else
    let gs := splitCharAux (Char.ofNat 10) s.data
    (if gs.getLast? = some [] then gs.dropLast else gs).map String.mk

/-- `compute_diff(text1, text2)`: split both texts into lines, fill the
LCS table, backtrack from `(m, n)`. -/
def compute_diff (text1 text2 : String) : List DiffLine :=
  backtrack_diff (splitlines text1) (splitlines text2)
    (splitlines text1).length (splitlines text2).length

/-- `diff_stats(diff)`: (additions, deletions). -/
def diff_stats (diff : List DiffLine) : Nat × Nat :=
  (diff.countP (fun x => decide (x.line_type = "+")),
   diff.countP (fun x => decide (x.line_type = "-")))

/-- The removed and unchanged lines of a diff, in order (these should
reconstruct the first text). -/
def removedAndUnchanged (d : List DiffLine) : List String :=
  (d.filter (fun x => decide (x.line_type ≠ "+"))).map DiffLine.content

/-- The added and unchanged lines of a diff, in order (these should
reconstruct the second text). -/
def addedAndUnchanged (d : List DiffLine) : List String :=
  (d.filter (fun x => decide (x.line_type ≠ "-"))).map DiffLine.content

/-- The unchanged lines of a diff, in order. -/
def unchangedLines (d : List DiffLine) : List String :=
  (d.filter (fun x => decide (x.line_type = " "))).map DiffLine.content

end MiniGit

namespace MiniGit

open List

/-- The field equations of the LCS table and the backtracking, exactly
the Python recurrences (they hold by `rfl` thanks to the structural
row-by-row definitions). -/
theorem lcsTable_zero (l1 l2 : List String) (j : Nat) :
    lcsTable l1 l2 0 j = 0 := rfl

theorem lcsTable_succ_zero (l1 l2 : List String) (i : Nat) :
    lcsTable l1 l2 (i + 1) 0 = 0 := rfl

theorem lcsTable_succ_succ (l1 l2 : List String) (i j : Nat) :
    lcsTable l1 l2 (i + 1) (j + 1) =
      if l1.getD i "" = l2.getD j "" then lcsTable l1 l2 i j + 1
      else max (lcsTable l1 l2 i (j + 1)) (lcsTable l1 l2 (i + 1) j) := rfl

theorem backtrack_zero_zero (l1 l2 : List String) :
    backtrack_diff l1 l2 0 0 = [] := rfl

theorem backtrack_zero_succ (l1 l2 : List String) (j : Nat) :
    backtrack_diff l1 l2 0 (j + 1) =
      backtrack_diff l1 l2 0 j ++ [⟨"+", l2.getD j "", 0⟩] := rfl

theorem backtrack_succ_zero (l1 l2 : List String) (i : Nat) :
    backtrack_diff l1 l2 (i + 1) 0 =
      backtrack_diff l1 l2 i 0 ++ [⟨"-", l1.getD i "", i + 1⟩] := rfl

theorem backtrack_succ_succ (l1 l2 : List String) (i j : Nat) :
    backtrack_diff l1 l2 (i + 1) (j + 1) =
      if l1.getD i "" = l2.getD j "" then
        backtrack_diff l1 l2 i j ++ [⟨" ", l1.getD i "", i + 1⟩]
      else if lcsTable l1 l2 (i + 1) j ≥ lcsTable l1 l2 i (j + 1) then
        backtrack_diff l1 l2 (i + 1) j ++ [⟨"+", l2.getD j "", 0⟩]
      else
        backtrack_diff l1 l2 i (j + 1) ++ [⟨"-", l1.getD i "", i + 1⟩] := rfl

/-- `splitCharAux` never returns the empty list. -/
theorem splitCharAux_ne_nil (sep : Char) (l : List Char) :
    splitCharAux sep l ≠ [] := by
  induction l with
  | nil => simp [splitCharAux]
  | cons c cs ih =>
    simp only [splitCharAux]
    split
    · simp
    · cases h : splitCharAux sep cs with
      | nil => simp
      | cons g gs => simp

/-- `take (i+1)` decomposes as `take i` plus the `i`-th element. -/
theorem take_concat_getD {α : Type} (l : List α) (i : Nat) (d : α)
    (h : i < l.length) : l.take (i + 1) = l.take i ++ [l.getD i d] := by
  rw [List.take_succ]
  simp [List.getElem?_eq_getElem h]

theorem removedAndUnchanged_append (a b : List DiffLine) :
    removedAndUnchanged (a ++ b) =
      removedAndUnchanged a ++ removedAndUnchanged b := by
  simp [removedAndUnchanged]

theorem addedAndUnchanged_append (a b : List DiffLine) :
    addedAndUnchanged (a ++ b) =
      addedAndUnchanged a ++ addedAndUnchanged b := by
  simp [addedAndUnchanged]

theorem unchangedLines_append (a b : List DiffLine) :
    unchangedLines (a ++ b) = unchangedLines a ++ unchangedLines b := by
  simp [unchangedLines]

/-- The non-added lines of the backtracked diff are exactly the first
`i` lines of the first text, in order. -/
theorem backtrack_removed (l1 l2 : List String) :
    ∀ i j, i ≤ l1.length → j ≤ l2.length →
      removedAndUnchanged (backtrack_diff l1 l2 i j) = l1.take i
  | 0, 0, _, _ => by
    simp [backtrack_zero_zero, removedAndUnchanged]
  | 0, j + 1, h1, h2 => by
    rw [backtrack_zero_succ, removedAndUnchanged_append,
      backtrack_removed l1 l2 0 j h1 (by omega)]
    simp [removedAndUnchanged]
  | i + 1, 0, h1, h2 => by
    rw [backtrack_succ_zero, removedAndUnchanged_append,
      backtrack_removed l1 l2 i 0 (by omega) h2,
      take_concat_getD l1 i "" (by omega)]
    simp [removedAndUnchanged]
  | i + 1, j + 1, h1, h2 => by
    rw [backtrack_succ_succ]
    by_cases hm : l1.getD i "" = l2.getD j ""
    · rw [if_pos hm, removedAndUnchanged_append,
        backtrack_removed l1 l2 i j (by omega) (by omega),
        take_concat_getD l1 i "" (by omega)]
      simp [removedAndUnchanged]
    · rw [if_neg hm]
      by_cases hge : lcsTable l1 l2 (i + 1) j ≥ lcsTable l1 l2 i (j + 1)
      · rw [if_pos hge, removedAndUnchanged_append,
          backtrack_removed l1 l2 (i + 1) j h1 (by omega)]
        simp [removedAndUnchanged]
      · rw [if_neg hge, removedAndUnchanged_append,
          backtrack_removed l1 l2 i (j + 1) (by omega) h2,
          take_concat_getD l1 i "" (by omega)]
        simp [removedAndUnchanged]
  termination_by i j => (i, j)

/-- The non-removed lines of the backtracked diff are exactly the first
`j` lines of the second text, in order. -/
theorem backtrack_added (l1 l2 : List String) :
    ∀ i j, i ≤ l1.length → j ≤ l2.length →
      addedAndUnchanged (backtrack_diff l1 l2 i j) = l2.take j
  | 0, 0, _, _ => by
    simp [backtrack_zero_zero, addedAndUnchanged]
  | 0, j + 1, h1, h2 => by
    rw [backtrack_zero_succ, addedAndUnchanged_append,
      backtrack_added l1 l2 0 j h1 (by omega),
      take_concat_getD l2 j "" (by omega)]
    simp [addedAndUnchanged]
  | i + 1, 0, h1, h2 => by
    rw [backtrack_succ_zero, addedAndUnchanged_append,
      backtrack_added l1 l2 i 0 (by omega) h2]
    simp [addedAndUnchanged]
  | i + 1, j + 1, h1, h2 => by
    rw [backtrack_succ_succ]
    by_cases hm : l1.getD i "" = l2.getD j ""
    · rw [if_pos hm, addedAndUnchanged_append,
        backtrack_added l1 l2 i j (by omega) (by omega),
        take_concat_getD l2 j "" (by omega)]
      simp [addedAndUnchanged]
      simpa using hm
    · rw [if_neg hm]
      by_cases hge : lcsTable l1 l2 (i + 1) j ≥ lcsTable l1 l2 i (j + 1)
      · rw [if_pos hge, addedAndUnchanged_append,
          backtrack_added l1 l2 (i + 1) j h1 (by omega),
          take_concat_getD l2 j "" (by omega)]
        simp [addedAndUnchanged]
      · rw [if_neg hge, addedAndUnchanged_append,
          backtrack_added l1 l2 i (j + 1) (by omega) h2]
        simp [addedAndUnchanged]
  termination_by i j => (i, j)

/-- The first column of the table is zero. -/
theorem lcsTable_right_zero (l1 l2 : List String) (i : Nat) :
    lcsTable l1 l2 i 0 = 0 := by
  cases i <;> rfl

/-- The number of unchanged lines emitted by the backtracking equals
the DP table entry at `(i, j)`. -/
theorem backtrack_unchanged_count (l1 l2 : List String) :
    ∀ i j,
      (unchangedLines (backtrack_diff l1 l2 i j)).length =
        lcsTable l1 l2 i j
  | 0, 0 => by
    simp [backtrack_zero_zero, unchangedLines, lcsTable_zero]
  | 0, j + 1 => by
    rw [backtrack_zero_succ, unchangedLines_append, List.length_append,
      backtrack_unchanged_count l1 l2 0 j]
    simp [unchangedLines, lcsTable_zero]
  | i + 1, 0 => by
    rw [backtrack_succ_zero, unchangedLines_append, List.length_append,
      backtrack_unchanged_count l1 l2 i 0]
    simp [unchangedLines, lcsTable_right_zero]
  | i + 1, j + 1 => by
    rw [backtrack_succ_succ, lcsTable_succ_succ]
    by_cases hm : l1.getD i "" = l2.getD j ""
    · rw [if_pos hm, if_pos hm, unchangedLines_append,
        List.length_append, backtrack_unchanged_count l1 l2 i j]
      simp [unchangedLines]
    · rw [if_neg hm, if_neg hm]
      by_cases hge : lcsTable l1 l2 (i + 1) j ≥ lcsTable l1 l2 i (j + 1)
      · rw [if_pos hge, unchangedLines_append, List.length_append,
          backtrack_unchanged_count l1 l2 (i + 1) j,
          Nat.max_eq_right hge]
        simp [unchangedLines]
      · rw [if_neg hge, unchangedLines_append, List.length_append,
          backtrack_unchanged_count l1 l2 i (j + 1),
          Nat.max_eq_left (Nat.le_of_not_le hge)]
        simp [unchangedLines]
  termination_by i j => (i, j)

/-- A sublist of `xs ++ [x]` either avoids the last element or ends
with it. -/
theorem sublist_concat_cases {α : Type} {l xs : List α} {x : α}
    (h : l <+ xs ++ [x]) :
    l <+ xs ∨ ∃ l', l = l' ++ [x] ∧ l' <+ xs := by
  rcases List.sublist_append_iff.mp h with ⟨a, b, rfl, ha, hb⟩
  rcases List.sublist_cons_iff.mp hb with hb0 | ⟨r, rfl, hr⟩
  · have hbnil : b = [] := List.sublist_nil.mp hb0
    subst hbnil
    exact Or.inl (by simpa using ha)
  · have hrnil : r = [] := List.sublist_nil.mp hr
    subst hrnil
    exact Or.inr ⟨a, rfl, ha⟩

/-- Upper bound: every common subsequence of the first `i` lines of
`l1` and the first `j` lines of `l2` has length at most the DP table
entry — i.e. the table really computes the LCS length. -/
theorem lcs_upper (l1 l2 : List String) :
    ∀ i j, i ≤ l1.length → j ≤ l2.length →
      ∀ l : List String, l <+ l1.take i → l <+ l2.take j →
        l.length ≤ lcsTable l1 l2 i j
  | 0, j, _, _, l, hs1, _ => by
    have hl : l = [] := List.sublist_nil.mp (by simpa using hs1)
    subst hl
    simp
  | i + 1, 0, _, _, l, _, hs2 => by
    have hl : l = [] := List.sublist_nil.mp (by simpa using hs2)
    subst hl
    simp
  | i + 1, j + 1, h1, h2, l, hs1, hs2 => by
    have hs1' := hs1
    have hs2' := hs2
    rw [take_concat_getD l1 i "" (by omega)] at hs1'
    rw [take_concat_getD l2 j "" (by omega)] at hs2'
    rw [lcsTable_succ_succ]
    by_cases hm : l1.getD i "" = l2.getD j ""
    · rw [if_pos hm]
      rcases sublist_concat_cases hs1' with hc1 | ⟨la, rfl, hla⟩
      · rcases sublist_concat_cases hs2' with hc2 | ⟨lb, rfl, hlb⟩
        · exact (lcs_upper l1 l2 i j (by omega) (by omega) l hc1
            hc2).trans (Nat.le_succ _)
        · have hlb1 : lb <+ l1.take i :=
            (List.sublist_append_left lb [l2.getD j ""]).trans hc1
          have hrec := lcs_upper l1 l2 i j (by omega) (by omega) lb hlb1 hlb
          simp only [List.length_append, List.length_singleton]
          omega
      · rcases sublist_concat_cases hs2' with hc2 | ⟨lb, heq, hlb⟩
        · have hla2 : la <+ l2.take j :=
            (List.sublist_append_left la [l1.getD i ""]).trans hc2
          have hrec := lcs_upper l1 l2 i j (by omega) (by omega) la hla hla2
          simp only [List.length_append, List.length_singleton]
          omega
        · obtain ⟨hlab, -⟩ := List.append_inj' heq rfl
          subst hlab
          have hrec := lcs_upper l1 l2 i j (by omega) (by omega) la hla hlb
          simp only [List.length_append, List.length_singleton]
          omega
    · rw [if_neg hm]
      rcases sublist_concat_cases hs1' with hc1 | ⟨la, rfl, hla⟩
      · exact (lcs_upper l1 l2 i (j + 1) (by omega) h2 l hc1
          hs2).trans (Nat.le_max_left _ _)
      · rcases sublist_concat_cases hs2' with hc2 | ⟨lb, heq, hlb⟩
        · exact (lcs_upper l1 l2 (i + 1) j h1 (by omega) _ hs1
            hc2).trans (Nat.le_max_right _ _)
        · obtain ⟨-, hAB⟩ := List.append_inj' heq rfl
          simp only [List.cons.injEq, and_true] at hAB
          exact absurd hAB hm
  termination_by i j => (i, j)

/-- The LCS table is symmetric in its two texts. -/
theorem lcsTable_symm (l1 l2 : List String) :
    ∀ i j, lcsTable l1 l2 i j = lcsTable l2 l1 j i
  | 0, j => by rw [lcsTable_zero, lcsTable_right_zero]
  | i + 1, 0 => by rw [lcsTable_right_zero, lcsTable_zero]
  | i + 1, j + 1 => by
    rw [lcsTable_succ_succ, lcsTable_succ_succ,
      lcsTable_symm l1 l2 i j, lcsTable_symm l1 l2 i (j + 1),
      lcsTable_symm l1 l2 (i + 1) j]
    by_cases hm : l1.getD i "" = l2.getD j ""
    · rw [if_pos hm, if_pos hm.symm]
    · rw [if_neg hm, if_neg (fun h => hm h.symm), Nat.max_comm]
  termination_by i j => (i, j)

/-- Every line of the backtracked diff is unchanged, added or
removed. -/
theorem backtrack_types (l1 l2 : List String) :
    ∀ i j, ∀ x ∈ backtrack_diff l1 l2 i j,
      x.line_type = " " ∨ x.line_type = "+" ∨ x.line_type = "-"
  | 0, 0, x, hx => by
    rw [backtrack_zero_zero] at hx
    simp at hx
  | 0, j + 1, x, hx => by
    rw [backtrack_zero_succ] at hx
    rcases List.mem_append.mp hx with h | h
    · exact backtrack_types l1 l2 0 j x h
    · simp only [List.mem_singleton] at h
      subst h
      simp
  | i + 1, 0, x, hx => by
    rw [backtrack_succ_zero] at hx
    rcases List.mem_append.mp hx with h | h
    · exact backtrack_types l1 l2 i 0 x h
    · simp only [List.mem_singleton] at h
      subst h
      simp
  | i + 1, j + 1, x, hx => by
    rw [backtrack_succ_succ] at hx
    by_cases hm : l1.getD i "" = l2.getD j ""
    · rw [if_pos hm] at hx
      rcases List.mem_append.mp hx with h | h
      · exact backtrack_types l1 l2 i j x h
      · simp only [List.mem_singleton] at h
        subst h
        simp
    · rw [if_neg hm] at hx
      by_cases hge : lcsTable l1 l2 (i + 1) j ≥ lcsTable l1 l2 i (j + 1)
      · rw [if_pos hge] at hx
        rcases List.mem_append.mp hx with h | h
        · exact backtrack_types l1 l2 (i + 1) j x h
        · simp only [List.mem_singleton] at h
          subst h
          simp
      · rw [if_neg hge] at hx
        rcases List.mem_append.mp hx with h | h
        · exact backtrack_types l1 l2 i (j + 1) x h
        · simp only [List.mem_singleton] at h
          subst h
          simp
  termination_by i j => (i, j)

/-- On a diff whose lines are all unchanged/added/removed, the
non-added lines are the removed plus the unchanged ones. -/
theorem length_filter_ne_plus (d : List DiffLine)
    (ht : ∀ x ∈ d,
      x.line_type = " " ∨ x.line_type = "+" ∨ x.line_type = "-") :
    (d.filter (fun x => decide (x.line_type ≠ "+"))).length =
      d.countP (fun x => decide (x.line_type = "-")) +
      d.countP (fun x => decide (x.line_type = " ")) := by
  induction d with
  | nil => simp
  | cons x xs ih =>
    have hx := ht x (by simp)
    have hxs : ∀ y ∈ xs,
        y.line_type = " " ∨ y.line_type = "+" ∨ y.line_type = "-" :=
      fun y hy => ht y (List.mem_cons_of_mem x hy)
    have ih' := ih hxs
    rcases hx with h | h | h <;>
      simp [List.filter_cons, List.countP_cons, h] at ih' ⊢ <;> omega

/-- On a diff whose lines are all unchanged/added/removed, the
non-removed lines are the added plus the unchanged ones. -/
theorem length_filter_ne_minus (d : List DiffLine)
    (ht : ∀ x ∈ d,
      x.line_type = " " ∨ x.line_type = "+" ∨ x.line_type = "-") :
    (d.filter (fun x => decide (x.line_type ≠ "-"))).length =
      d.countP (fun x => decide (x.line_type = "+")) +
      d.countP (fun x => decide (x.line_type = " ")) := by
  induction d with
  | nil => simp
  | cons x xs ih =>
    have hx := ht x (by simp)
    have hxs : ∀ y ∈ xs,
        y.line_type = " " ∨ y.line_type = "+" ∨ y.line_type = "-" :=
      fun y hy => ht y (List.mem_cons_of_mem x hy)
    have ih' := ih hxs
    rcases hx with h | h | h <;>
      simp [List.filter_cons, List.countP_cons, h] at ih' ⊢ <;> omega

/-- The number of unchanged lines is the count of `" "` entries. -/
theorem unchangedLines_length (d : List DiffLine) :
    (unchangedLines d).length =
      d.countP (fun x => decide (x.line_type = " ")) := by
  simp [unchangedLines, List.countP_eq_length_filter]

/-- C2: `compute_diff` splits the texts into lines, fills the LCS table
and backtracks into a minimal edit script: the removed-plus-unchanged
lines reproduce the first text, the added-plus-unchanged lines
reproduce the second, the unchanged lines form a common subsequence of
both line lists whose length is exactly the LCS table entry at (m, n),
and no common subsequence is longer (minimality). -/
theorem compute_diff_minimal_edit_script (text1 text2 : String) :
    removedAndUnchanged (compute_diff text1 text2) = splitlines text1 ∧
    addedAndUnchanged (compute_diff text1 text2) = splitlines text2 ∧
    (unchangedLines (compute_diff text1 text2)).length =
      lcsTable (splitlines text1) (splitlines text2)
        (splitlines text1).length (splitlines text2).length ∧
    unchangedLines (compute_diff text1 text2) <+ splitlines text1 ∧
    unchangedLines (compute_diff text1 text2) <+ splitlines text2 ∧
    ∀ l : List String, l <+ splitlines text1 → l <+ splitlines text2 →
      l.length ≤ (unchangedLines (compute_diff text1 text2)).length := by
  have hcd : compute_diff text1 text2 =
      backtrack_diff (splitlines text1) (splitlines text2)
        (splitlines text1).length (splitlines text2).length := rfl
  have h1 := backtrack_removed (splitlines text1) (splitlines text2)
    (splitlines text1).length (splitlines text2).length le_rfl le_rfl
  have h2 := backtrack_added (splitlines text1) (splitlines text2)
    (splitlines text1).length (splitlines text2).length le_rfl le_rfl
  have h3 := backtrack_unchanged_count (splitlines text1) (splitlines text2)
    (splitlines text1).length (splitlines text2).length
  rw [List.take_length] at h1 h2
  have hfil1 : unchangedLines (compute_diff text1 text2) <+
      removedAndUnchanged (compute_diff text1 text2) := by
    unfold unchangedLines removedAndUnchanged
    refine List.Sublist.map _ (List.monotone_filter_right _ ?_)
    intro x hx
    simp only [decide_eq_true_eq] at hx ⊢
    rw [hx]
    decide
  have hfil2 : unchangedLines (compute_diff text1 text2) <+
      addedAndUnchanged (compute_diff text1 text2) := by
    unfold unchangedLines addedAndUnchanged
    refine List.Sublist.map _ (List.monotone_filter_right _ ?_)
    intro x hx
    simp only [decide_eq_true_eq] at hx ⊢
    rw [hx]
    decide
  rw [hcd] at hfil1 hfil2 ⊢
  rw [h1] at hfil1
  rw [h2] at hfil2
  refine ⟨h1, h2, h3, hfil1, hfil2, ?_⟩
  intro l hl1 hl2
  rw [h3]
  exact lcs_upper (splitlines text1) (splitlines text2)
    (splitlines text1).length (splitlines text2).length le_rfl le_rfl l
    (by rw [List.take_length]; exact hl1)
    (by rw [List.take_length]; exact hl2)

/-- Instance of C2 evaluated on the spec's example pair. -/
theorem compute_diff_minimal_edit_script_witness :
    removedAndUnchanged (compute_diff "a\nb" "a\nc") = ["a", "b"] ∧
    addedAndUnchanged (compute_diff "a\nb" "a\nc") = ["a", "c"] ∧
    (["a"] : List String).length ≤
      (unchangedLines (compute_diff "a\nb" "a\nc")).length := by
  have h := compute_diff_minimal_edit_script "a\nb" "a\nc"
  refine ⟨?_, ?_, h.2.2.2.2.2 ["a"] ?_ ?_⟩
  · rw [h.1]
    rfl
  · rw [h.2.1]
    rfl
  · decide
  · decide

/-- Swapping the two texts preserves the number of unchanged lines and
swaps the addition and removal counts (list-level form). -/
theorem backtrack_swap_counts (l1 l2 : List String) :
    (backtrack_diff l2 l1 l2.length l1.length).countP
        (fun x => decide (x.line_type = "+")) =
      (backtrack_diff l1 l2 l1.length l2.length).countP
        (fun x => decide (x.line_type = "-")) ∧
    (unchangedLines (backtrack_diff l2 l1 l2.length l1.length)).length =
      (unchangedLines (backtrack_diff l1 l2 l1.length l2.length)).length := by
  have hu1 := backtrack_unchanged_count l1 l2 l1.length l2.length
  have hu2 := backtrack_unchanged_count l2 l1 l2.length l1.length
  have hsym := lcsTable_symm l1 l2 l1.length l2.length
  have hueq : (unchangedLines
        (backtrack_diff l2 l1 l2.length l1.length)).length =
      (unchangedLines (backtrack_diff l1 l2 l1.length l2.length)).length := by
    rw [hu1, hu2, hsym]
  refine ⟨?_, hueq⟩
  have h1 : (removedAndUnchanged
      (backtrack_diff l1 l2 l1.length l2.length)).length = l1.length := by
    rw [backtrack_removed l1 l2 l1.length l2.length le_rfl le_rfl,
      List.take_length]
  have h2 : (addedAndUnchanged
      (backtrack_diff l2 l1 l2.length l1.length)).length = l1.length := by
    rw [backtrack_added l2 l1 l2.length l1.length le_rfl le_rfl,
      List.take_length]
  rw [removedAndUnchanged, List.length_map,
    length_filter_ne_plus _
      (backtrack_types l1 l2 l1.length l2.length)] at h1
  rw [addedAndUnchanged, List.length_map,
    length_filter_ne_minus _
      (backtrack_types l2 l1 l2.length l1.length)] at h2
  rw [unchangedLines_length, unchangedLines_length] at hueq
  omega

/-- C7 fails as stated: on texts "x\ny" and "y\nx" the two diff
directions keep DIFFERENT unchanged lines (the backtracking picks a
different longest common subsequence in each direction), so swapping
the inputs does not preserve the unchanged lines. -/
theorem compute_diff_swap_counterexample :
    unchangedLines (compute_diff "x\ny" "y\nx") = ["y"] ∧
    unchangedLines (compute_diff "y\nx" "x\ny") = ["x"] ∧
    (["y"] : List String) ≠ ["x"] := by
  refine ⟨rfl, rfl, by decide⟩

/-- C7 (amended): swapping the inputs of `compute_diff` swaps the
NUMBER of added and removed lines and preserves the NUMBER of
unchanged lines; the unchanged lines themselves need not be preserved,
because the backtracking may select a different longest common
subsequence in each direction. -/
theorem compute_diff_swap_stats (a b : String) :
    (diff_stats (compute_diff b a)).1 = (diff_stats (compute_diff a b)).2 ∧
    (diff_stats (compute_diff b a)).2 = (diff_stats (compute_diff a b)).1 ∧
    (unchangedLines (compute_diff b a)).length =
      (unchangedLines (compute_diff a b)).length := by
  have g1 := backtrack_swap_counts (splitlines a) (splitlines b)
  have g2 := backtrack_swap_counts (splitlines b) (splitlines a)
  exact ⟨g1.1, g2.1.symm, g1.2⟩

theorem add_child_eq (n c : TreeNode) :
    add_child n c = TreeNode.mk n.name n.isFile n.contentHash
      (replaceByName n.children c) := by
  cases n
  rfl

theorem mem_replaceByName {l : List TreeNode} {c x : TreeNode}
    (hx : x ∈ replaceByName l c) : x ∈ l ∨ x = c := by
  induction l with
  | nil =>
    simp only [replaceByName, List.mem_singleton] at hx
    exact Or.inr hx
  | cons y ys ih =>
    simp only [replaceByName] at hx
    split at hx
    · rcases List.mem_cons.mp hx with h | h
      · exact Or.inr h
      · exact Or.inl (List.mem_cons_of_mem y h)
    · rcases List.mem_cons.mp hx with h | h
      · exact Or.inl (by simp [h])
      · rcases ih h with h2 | h2
        · exact Or.inl (List.mem_cons_of_mem y h2)
        · exact Or.inr h2

theorem replaceByName_of_not_mem {l : List TreeNode} {c : TreeNode}
    (h : c.name ∉ l.map TreeNode.name) : replaceByName l c = l ++ [c] := by
  induction l with
  | nil => rfl
  | cons y ys ih =>
    simp only [List.map_cons, List.mem_cons] at h
    push_neg at h
    simp only [replaceByName]
    rw [if_neg (fun he => h.1 he.symm), ih h.2]
    rfl

theorem names_replaceByName_of_mem {l : List TreeNode} {c : TreeNode}
    (h : c.name ∈ l.map TreeNode.name) :
    (replaceByName l c).map TreeNode.name = l.map TreeNode.name := by
  induction l with
  | nil => simp at h
  | cons y ys ih =>
    simp only [replaceByName]
    by_cases he : y.name = c.name
    · rw [if_pos he]
      simp [he]
    · rw [if_neg he]
      simp only [List.map_cons]
      congr 1
      apply ih
      simp only [List.map_cons, List.mem_cons] at h
      rcases h with h | h
      · exact absurd h.symm he
      · exact h

theorem nodup_names_replaceByName {l : List TreeNode} {c : TreeNode}
    (h : (l.map TreeNode.name).Nodup) :
    ((replaceByName l c).map TreeNode.name).Nodup := by
  by_cases hm : c.name ∈ l.map TreeNode.name
  · rw [names_replaceByName_of_mem hm]
    exact h
  · rw [replaceByName_of_not_mem hm, List.map_append]
    simp [List.nodup_append, h, hm]

theorem find?_replaceByName (l : List TreeNode) (c : TreeNode) (nm : String) :
    (replaceByName l c).find? (fun d => decide (d.name = nm)) =
      if nm = c.name then some c
      else l.find? (fun d => decide (d.name = nm)) := by
  induction l with
  | nil =>
    by_cases he : nm = c.name
    · simp [replaceByName, he]
    · rw [if_neg he]
      simp only [replaceByName, List.find?_nil]
      rw [List.find?_cons_of_neg _ (by simpa using fun hh => he hh.symm)]
      rfl
  | cons y ys ih =>
    simp only [replaceByName]
    by_cases hy : y.name = c.name
    · rw [if_pos hy]
      by_cases he : nm = c.name
      · rw [if_pos he]
        exact List.find?_cons_of_pos _ (by simp [he])
      · rw [if_neg he,
          List.find?_cons_of_neg _ (by simpa using fun hh => he hh.symm),
          List.find?_cons_of_neg _
            (by simpa using fun hh => he (by rw [← hh, hy]))]
    · rw [if_neg hy]
      by_cases he : nm = c.name
      · rw [if_pos he,
          List.find?_cons_of_neg _
            (by simpa using fun hh => hy (by rw [hh, he])),
          ih, if_pos he]
      · rw [if_neg he]
        by_cases hyn : y.name = nm
        · rw [List.find?_cons_of_pos _ (by simp [hyn]),
            List.find?_cons_of_pos _ (by simp [hyn])]
        · rw [List.find?_cons_of_neg _ (by simp [hyn]),
            List.find?_cons_of_neg _ (by simp [hyn]), ih, if_neg he]

theorem get_child_add_child (n c : TreeNode) (nm : String) :
    get_child (add_child n c) nm =
      if nm = c.name then some c else get_child n nm := by
  rw [add_child_eq]
  show (replaceByName n.children c).find? (fun d => decide (d.name = nm)) = _
  rw [find?_replaceByName]
  rfl

theorem get_child_name {n c : TreeNode} {d : String}
    (h : get_child n d = some c) : c.name = d := by
  have := List.find?_some h
  simpa using this

theorem mem_children_of_get_child {n c : TreeNode} {d : String}
    (h : get_child n d = some c) : c ∈ n.children :=
  List.mem_of_find?_eq_some h

theorem wfList_iff (cs : List TreeNode) :
    wfList cs = true ↔ ∀ c ∈ cs, wfNode c = true := by
  induction cs with
  | nil => simp [wfList]
  | cons c cs ih => simp [wfList, ih, Bool.and_eq_true]

theorem wfNode_mk_iff {nm : String} {isF : Bool} {ch : Option String}
    {cs : List TreeNode} :
    wfNode (.mk nm isF ch cs) = true ↔
      (isF = true → cs = []) ∧ (isF = false → ch = none) ∧
      (cs.map TreeNode.name).Nodup ∧ ∀ c ∈ cs, wfNode c = true := by
  cases isF <;>
    simp [wfNode, wfList_iff, Bool.and_eq_true, List.isEmpty_iff,
      Option.isNone_iff_eq_none, and_assoc]

theorem wf_child_of_get_child {n c : TreeNode} {d : String}
    (hw : wfNode n = true) (h : get_child n d = some c) :
    wfNode c = true := by
  cases n with
  | mk nm isF ch cs =>
    exact (wfNode_mk_iff.mp hw).2.2.2 c (mem_children_of_get_child h)

theorem add_child_wf {n c : TreeNode} (hn : n.isFile = false)
    (hwn : wfNode n = true) (hwc : wfNode c = true) :
    wfNode (add_child n c) = true := by
  cases n with
  | mk nm isF ch cs =>
    simp only [TreeNode.isFile] at hn
    subst hn
    show wfNode (.mk nm false ch (replaceByName cs c)) = true
    rw [wfNode_mk_iff] at hwn ⊢
    obtain ⟨-, hch, hnd, hall⟩ := hwn
    refine ⟨by simp, hch, nodup_names_replaceByName hnd, ?_⟩
    intro x hx
    rcases mem_replaceByName hx with h | h
    · exact hall x h
    · subst h
      exact hwc

theorem addChildren_eq :
    ∀ (cs : List TreeNode) (nm : String) (isF : Bool) (ch : Option String)
      (acc : List TreeNode),
      (∀ c ∈ cs, c.name ∉ acc.map TreeNode.name) →
      (cs.map TreeNode.name).Nodup →
      addChildren (.mk nm isF ch acc) cs = .mk nm isF ch (acc ++ cs) := by
  intro cs
  induction cs with
  | nil =>
    intro nm isF ch acc _ _
    simp [addChildren]
  | cons c cs ih =>
    intro nm isF ch acc hdisj hnd
    simp only [addChildren, List.foldl_cons]
    have h1 : add_child (TreeNode.mk nm isF ch acc) c =
        TreeNode.mk nm isF ch (acc ++ [c]) := by
      show TreeNode.mk nm isF ch (replaceByName acc c) = _
      rw [replaceByName_of_not_mem (hdisj c (by simp))]
    rw [h1]
    simp only [List.map_cons, List.nodup_cons] at hnd
    have hdisj' : ∀ x ∈ cs, x.name ∉ (acc ++ [c]).map TreeNode.name := by
      intro x hx
      rw [List.map_append, List.mem_append]
      rintro (h | h)
      · exact hdisj x (List.mem_cons_of_mem c hx) h
      · simp only [List.map_cons, List.map_nil, List.mem_singleton] at h
        exact hnd.1 (h ▸ List.mem_map_of_mem TreeNode.name hx)
    have hrec := ih nm isF ch (acc ++ [c]) hdisj' hnd.2
    rw [show List.foldl add_child (TreeNode.mk nm isF ch (acc ++ [c])) cs =
        addChildren (TreeNode.mk nm isF ch (acc ++ [c])) cs from rfl, hrec,
      List.append_assoc]
    rfl

mutual

/-- Deserializing the serialized form of a well-formed node reproduces
the node exactly. -/
theorem from_to_dict : ∀ (n : TreeNode), wfNode n = true →
    from_dict (to_dict n) = n
  | .mk nm isF ch cs, hw => by
    rw [wfNode_mk_iff] at hw
    obtain ⟨hfile, hdir, hnd, hall⟩ := hw
    cases isF with
    | true =>
      have hcs := hfile rfl
      subst hcs
      rfl
    | false =>
      have hch := hdir rfl
      subst hch
      have hlist : fromDictList (toDictList cs) = cs :=
        from_to_dictList cs ((wfList_iff cs).mpr hall)
      show addChildren (TreeNode.mk nm false none [])
        (fromDictList (toDictList cs)) = TreeNode.mk nm false none cs
      rw [hlist]
      exact addChildren_eq cs nm false none [] (by simp) hnd

theorem from_to_dictList : ∀ (cs : List TreeNode), wfList cs = true →
    fromDictList (toDictList cs) = cs
  | [], _ => rfl
  | c :: cs, hw => by
    simp only [wfList, Bool.and_eq_true] at hw
    show from_dict (to_dict c) :: fromDictList (toDictList cs) = c :: cs
    rw [from_to_dict c hw.1, from_to_dictList cs hw.2]

end

theorem isFileAt_mk_empty (nm : String) (ch : Option String) :
    ∀ q, isFileAt (TreeNode.mk nm false ch []) q = false
  | [] => rfl
  | _ :: _ => rfl

theorem dirsOnly_mk_empty (nm : String) (ch : Option String) :
    ∀ ds, dirsOnly (TreeNode.mk nm false ch []) ds = true
  | [] => rfl
  | _ :: _ => rfl

theorem addFileParts_name (dirs : List String) (node : TreeNode)
    (fname ch : String) :
    (addFileParts node dirs fname ch).name = node.name := by
  cases dirs with
  | nil => cases node; rfl
  | cons d rest => cases node; rfl

theorem addFileParts_isFile (dirs : List String) (node : TreeNode)
    (fname ch : String) :
    (addFileParts node dirs fname ch).isFile = node.isFile := by
  cases dirs with
  | nil => cases node; rfl
  | cons d rest => cases node; rfl

/-- Any file path present after `addFileParts` was either already
present or is exactly the inserted path. -/
theorem isFileAt_addFileParts :
    ∀ (dirs : List String) (node : TreeNode) (fname ch : String)
      (q : List String),
      isFileAt (addFileParts node dirs fname ch) q = true →
      isFileAt node q = true ∨ q = dirs ++ [fname] := by
  intro dirs
  induction dirs with
  | nil =>
    intro node fname ch q hq
    simp only [addFileParts] at hq
    cases q with
    | nil =>
      left
      cases node with
      | mk nm isF ch0 cs =>
        simpa [isFileAt, add_child, TreeNode.isFile] using hq
    | cons x qs =>
      have hgc := get_child_add_child node (TreeNode.mk fname true (some ch) []) x
      simp only [TreeNode.name] at hgc
      by_cases hx : x = fname
      · rw [if_pos hx] at hgc
        simp only [isFileAt] at hq
        simp only [hgc] at hq
        cases qs with
        | nil =>
          right
          rw [hx]
          rfl
        | cons y ys =>
          rw [show isFileAt (TreeNode.mk fname true (some ch) []) (y :: ys) =
            false from rfl] at hq
          exact absurd hq (by simp)
      · rw [if_neg hx] at hgc
        left
        simp only [isFileAt] at hq ⊢
        simp only [hgc] at hq
        exact hq
  | cons d rest ih =>
    intro node fname ch q hq
    cases hgcd : get_child node d with
    | some c =>
      have hcname : c.name = d := get_child_name hgcd
      simp only [addFileParts, hgcd] at hq
      cases q with
      | nil =>
        left
        cases node with
        | mk nm isF ch0 cs =>
          simpa [isFileAt, add_child, TreeNode.isFile] using hq
      | cons x qs =>
        have hname : (addFileParts c rest fname ch).name = d := by
          rw [addFileParts_name]
          exact hcname
        have hgc := get_child_add_child node (addFileParts c rest fname ch) x
        rw [hname] at hgc
        by_cases hx : x = d
        · rw [if_pos hx] at hgc
          simp only [isFileAt] at hq
          simp only [hgc] at hq
          rcases ih c fname ch qs hq with h | h
          · left
            rw [hx]
            simp only [isFileAt, hgcd]
            exact h
          · right
            rw [h, hx]
            rfl
        · rw [if_neg hx] at hgc
          left
          simp only [isFileAt] at hq ⊢
          simp only [hgc] at hq
          exact hq
    | none =>
      simp only [addFileParts, hgcd] at hq
      cases q with
      | nil =>
        left
        cases node with
        | mk nm isF ch0 cs =>
          simpa [isFileAt, add_child, TreeNode.isFile] using hq
      | cons x qs =>
        have hname :
            (addFileParts (TreeNode.mk d false none []) rest fname ch).name = d := by
          rw [addFileParts_name]
          rfl
        have hgc := get_child_add_child node
          (addFileParts (TreeNode.mk d false none []) rest fname ch) x
        rw [hname] at hgc
        by_cases hx : x = d
        · rw [if_pos hx] at hgc
          simp only [isFileAt] at hq
          simp only [hgc] at hq
          rcases ih (TreeNode.mk d false none []) fname ch qs hq with h | h
          · rw [isFileAt_mk_empty] at h
            exact absurd h (by simp)
          · right
            rw [h, hx]
            rfl
        · rw [if_neg hx] at hgc
          left
          simp only [isFileAt] at hq ⊢
          simp only [hgc] at hq
          exact hq

/-- `addFileParts` keeps the tree well-formed when the walk meets only
directories. -/
theorem wf_addFileParts :
    ∀ (dirs : List String) (node : TreeNode) (fname ch : String),
      node.isFile = false → wfNode node = true → dirsOnly node dirs = true →
      wfNode (addFileParts node dirs fname ch) = true := by
  intro dirs
  induction dirs with
  | nil =>
    intro node fname ch hnf hw _
    refine add_child_wf hnf hw ?_
    rw [wfNode_mk_iff]
    exact ⟨fun _ => rfl, by simp, by simp, by simp⟩
  | cons d rest ih =>
    intro node fname ch hnf hw hdo
    cases hgcd : get_child node d with
    | some c =>
      simp only [addFileParts, hgcd]
      have hdo' : (!c.isFile && dirsOnly c rest) = true := by
        have h0 := hdo
        simp only [dirsOnly, hgcd] at h0
        exact h0
      rw [Bool.and_eq_true] at hdo'
      have hcf : c.isFile = false := by
        have := hdo'.1
        simp only [Bool.not_eq_true'] at this
        exact this
      exact add_child_wf hnf hw
        (ih c fname ch hcf (wf_child_of_get_child hw hgcd) hdo'.2)
    | none =>
      simp only [addFileParts, hgcd]
      refine add_child_wf hnf hw (ih (TreeNode.mk d false none []) fname ch rfl ?_
        (dirsOnly_mk_empty d none rest))
      rw [wfNode_mk_iff]
      exact ⟨by simp, fun _ => rfl, by simp, by simp⟩

/-- If no existing file node sits on the walk, the walk meets only
directories. -/
theorem dirsOnly_of_no_file :
    ∀ (ds : List String) (t : TreeNode),
      (∀ k, k ≤ ds.length → isFileAt t (ds.take k) = false) →
      dirsOnly t ds = true := by
  intro ds
  induction ds with
  | nil => intro t _; rfl
  | cons d ds ih =>
    intro t hk
    cases hgc : get_child t d with
    | none => simp [dirsOnly, hgc]
    | some c =>
      simp only [dirsOnly, hgc]
      have h1 : isFileAt t [d] = false := by
        have := hk 1 (by simp)
        simpa using this
      have hcf : c.isFile = false := by
        simpa [isFileAt, hgc] using h1
      rw [Bool.and_eq_true]
      refine ⟨by simp [hcf], ?_⟩
      apply ih c
      intro k hk'
      have := hk (k + 1) (by simpa using hk')
      simpa [isFileAt, hgc, List.take_succ_cons] using this

theorem add_file_isFile (t : TreeNode) (p ch : String) :
    (add_file t p ch).isFile = t.isFile := by
  cases hc : comps p with
  | nil => simp [add_file, hc]
  | cons c0 crest => simp [add_file, hc, addFileParts_isFile]

theorem add_file_wf (t : TreeNode) (p ch : String) (hnf : t.isFile = false)
    (hw : wfNode t = true)
    (hdo : ∀ k, k ≤ (comps p).dropLast.length →
      isFileAt t ((comps p).dropLast.take k) = false) :
    wfNode (add_file t p ch) = true := by
  cases hc : comps p with
  | nil => simpa [add_file, hc] using hw
  | cons c0 crest =>
    rw [hc] at hdo
    simp only [add_file, hc]
    exact wf_addFileParts _ t _ _ hnf hw (dirsOnly_of_no_file _ t hdo)

theorem isFileAt_add_file (t : TreeNode) (p ch : String) (q : List String)
    (hq : isFileAt (add_file t p ch) q = true) :
    isFileAt t q = true ∨ q = comps p := by
  cases hc : comps p with
  | nil =>
    simp only [add_file, hc] at hq
    exact Or.inl hq
  | cons c0 crest =>
    simp only [add_file, hc] at hq
    rcases isFileAt_addFileParts _ t _ _ q hq with h | h
    · exact Or.inl h
    · right
      rw [h]
      exact List.dropLast_concat_getLast _

/-- Folding prefix-free insertions over a well-formed tree whose file
paths all come from already-inserted paths keeps the tree
well-formed. -/
theorem build_wf_aux :
    ∀ (rest : List (String × String)) (t : TreeNode) (done : List String),
      wfNode t = true → t.isFile = false →
      (∀ q, isFileAt t q = true → ∃ p ∈ done, q = comps p) →
      (∀ p ∈ done, ∀ r ∈ rest, ¬ (comps p <+: comps r.1)) →
      rest.Pairwise (fun a b =>
        ¬ (comps a.1 <+: comps b.1) ∧ ¬ (comps b.1 <+: comps a.1)) →
      wfNode (rest.foldl (fun tr pr => add_file tr pr.1 pr.2) t) = true := by
  intro rest
  induction rest with
  | nil =>
    intro t done hw _ _ _ _
    simpa using hw
  | cons pr rest ih =>
    intro t done hw hnf hfiles hdone hpw
    rw [List.foldl_cons]
    rcases List.pairwise_cons.mp hpw with ⟨hpr, hpw'⟩
    have hdo : ∀ k, k ≤ (comps pr.1).dropLast.length →
        isFileAt t ((comps pr.1).dropLast.take k) = false := by
      intro k hk
      by_contra hfk
      have hfk' : isFileAt t ((comps pr.1).dropLast.take k) = true := by
        revert hfk
        cases isFileAt t ((comps pr.1).dropLast.take k) <;> simp
      obtain ⟨p, hp, he⟩ := hfiles _ hfk'
      have hpre : comps p <+: comps pr.1 := by
        rw [← he]
        have h1 : (comps pr.1).dropLast.take k <+: (comps pr.1).dropLast :=
          ⟨(comps pr.1).dropLast.drop k, List.take_append_drop k _⟩
        have h2 : (comps pr.1).dropLast <+: comps pr.1 := by
          cases hcc : comps pr.1 with
          | nil => exact ⟨[], rfl⟩
          | cons c0 crest =>
            exact ⟨[(c0 :: crest).getLast (List.cons_ne_nil c0 crest)],
              List.dropLast_concat_getLast _⟩
        exact h1.trans h2
      exact hdone p hp pr (by simp) hpre
    have hw' : wfNode (add_file t pr.1 pr.2) = true :=
      add_file_wf t pr.1 pr.2 hnf hw hdo
    have hnf' : (add_file t pr.1 pr.2).isFile = false := by
      rw [add_file_isFile]
      exact hnf
    apply ih (add_file t pr.1 pr.2) (done ++ [pr.1]) hw' hnf'
    · intro q hq
      rcases isFileAt_add_file t pr.1 pr.2 q hq with h | h
      · obtain ⟨p, hp, he⟩ := hfiles q h
        exact ⟨p, by simp [hp], he⟩
      · exact ⟨pr.1, by simp, h⟩
    · intro p hp r hr
      rcases List.mem_append.mp hp with h | h
      · exact hdone p h r (List.mem_cons_of_mem pr hr)
      · simp only [List.mem_singleton] at h
        subst h
        exact (hpr r hr).1
    · exact hpw'

/-- A tree built from prefix-free (path, hash) pairs is well-formed. -/
theorem build_wf (pairs : List (String × String)) (hpf : PrefixFree pairs) :
    wfNode (buildTree pairs) = true := by
  apply build_wf_aux pairs emptyRoot [] (by decide) rfl
  · intro q hq
    rw [show emptyRoot = TreeNode.mk "." false none [] from rfl,
      isFileAt_mk_empty] at hq
    exact absurd hq (by simp)
  · intro p hp
    simp at hp
  · exact hpf

/-- C5: for every tree built with `add_file` from (path, hash) pairs in
which no path is a prefix of another, deserializing the serialized tree
reproduces the same `list_all_files` and the same `get_file_hash` on
every path, and serializing again yields output identical to the first
serialization (serialize → deserialize → serialize is the identity on
serialized form). -/
theorem tree_roundtrip_of_prefix_free (pairs : List (String × String))
    (hpf : PrefixFree pairs) :
    list_all_files (from_dict (to_dict (buildTree pairs))) =
      list_all_files (buildTree pairs) ∧
    (∀ p, get_file_hash (from_dict (to_dict (buildTree pairs))) p =
      get_file_hash (buildTree pairs) p) ∧
    to_dict (from_dict (to_dict (buildTree pairs))) =
      to_dict (buildTree pairs) := by
  have hrt : from_dict (to_dict (buildTree pairs)) = buildTree pairs :=
    from_to_dict _ (build_wf pairs hpf)
  rw [hrt]
  exact ⟨rfl, fun _ => rfl, rfl⟩

/-- Instance of C5 on a concrete prefix-free pair set. -/
theorem tree_roundtrip_of_prefix_free_witness :
    to_dict (from_dict (to_dict (buildTree [("a/b", "h1"), ("c", "h2")]))) =
      to_dict (buildTree [("a/b", "h1"), ("c", "h2")]) ∧
    get_file_hash
      (from_dict (to_dict (buildTree [("a/b", "h1"), ("c", "h2")]))) "a/b" =
      get_file_hash (buildTree [("a/b", "h1"), ("c", "h2")]) "a/b" := by
  have h := tree_roundtrip_of_prefix_free [("a/b", "h1"), ("c", "h2")]
    (by unfold PrefixFree; decide)
  exact ⟨h.2.2, h.2.1 "a/b"⟩

/-- C10: adding a path that strictly extends an existing file leaf's
path ("a" then "a/b") attaches the new leaf as a child of the file
node: `get_file_hash` still finds it in memory, but `list_all_files`
omits it, `to_dict` drops children of file nodes, and the file is lost
by a serialize/deserialize round-trip. -/
theorem file_child_lost_on_roundtrip (h1 h2 : String) :
    get_file_hash (add_file (add_file emptyRoot "a" h1) "a/b" h2) "a/b" = some h2 ∧
    list_all_files (add_file (add_file emptyRoot "a" h1) "a/b" h2) = ["a"] ∧
    to_dict (add_file (add_file emptyRoot "a" h1) "a/b" h2) =
      TreeData.mk "." false none [TreeData.mk "a" true (some h1) []] ∧
    get_file_hash (from_dict (to_dict (add_file (add_file emptyRoot "a" h1) "a/b" h2))) "a/b" = none ∧
    get_file_hash (from_dict (to_dict (add_file (add_file emptyRoot "a" h1) "a/b" h2))) "a" = some h1 := by
  refine ⟨rfl, rfl, rfl, rfl, rfl⟩

/-- When the walk from `oh` terminates with hash list `l`, the second
merge-ancestor loop returns exactly the first hash of `l` that lies in
`anc`. -/
theorem findFirstShared_eq (store : CommitStore) (anc : List String) :
    ∀ fuel (oh : Option String) (l : List String),
      collectAncestors store fuel oh = .ok l →
      findFirstShared store anc fuel oh =
        .ok (l.find? (fun c => decide (c ∈ anc))) := by
  intro fuel
  induction fuel with
  | zero =>
    intro oh l hc
    cases oh with
    | none =>
      simp only [collectAncestors, Except.ok.injEq] at hc
      subst hc
      rfl
    | some h => simp [collectAncestors] at hc
  | succ fuel ih =>
    intro oh l hc
    cases oh with
    | none =>
      simp only [collectAncestors, Except.ok.injEq] at hc
      subst hc
      rfl
    | some h =>
      cases hsh : store h with
      | none => simp [collectAncestors, hsh] at hc
      | some c =>
        simp only [collectAncestors, hsh] at hc
        cases hrest : collectAncestors store fuel c.parent_hash with
        | error e => simp [hrest] at hc
        | ok rest =>
          simp only [hrest, Except.ok.injEq] at hc
          subst hc
          by_cases hm : h ∈ anc
          · simp [findFirstShared, hm]
          · simp only [findFirstShared, if_neg hm, hsh]
            rw [ih c.parent_hash rest hrest,
              List.find?_cons_of_neg _ (by simp [hm])]

/-- C3: when the parent chains of both arguments terminate at null
parents (with hash lists `l1` for the first and `l2` for the second,
every hash present in the store), `find_common_ancestor` returns the
first hash on the second chain that lies in the ancestor set of the
first (which includes the first hash itself), and it returns `none`
exactly when the two chains share no commit. -/
theorem find_common_ancestor_spec (store : CommitStore) (fuel : Nat)
    (h1 h2 : String) (l1 l2 : List String)
    (hc1 : collectAncestors store fuel (some h1) = .ok l1)
    (hc2 : collectAncestors store fuel (some h2) = .ok l2) :
    find_common_ancestor store fuel h1 h2 =
      .ok (l2.find? (fun c => decide (c ∈ l1))) ∧
    (find_common_ancestor store fuel h1 h2 = .ok none ↔
      ∀ c, c ∈ l1 → c ∈ l2 → False) := by
  have hmain : find_common_ancestor store fuel h1 h2 =
      .ok (l2.find? (fun c => decide (c ∈ l1))) := by
    unfold find_common_ancestor
    simp only [hc1]
    exact findFirstShared_eq store l1 fuel (some h2) l2 hc2
  refine ⟨hmain, ?_⟩
  rw [hmain]
  constructor
  · intro hok
    have hfind : l2.find? (fun c => decide (c ∈ l1)) = none := by
      injection hok
    intro c hcl1 hcl2
    have := List.find?_eq_none.mp hfind c hcl2
    simp at this
    exact this hcl1
  · intro hdisj
    have hfind : l2.find? (fun c => decide (c ∈ l1)) = none := by
      rw [List.find?_eq_none]
      intro c hcl2
      simp only [decide_eq_true_eq]
      intro hcl1
      exact hdisj c hcl1 hcl2
    rw [hfind]

/-- A concrete commit store: linear history A→B→C with a second branch
C→D (each hash maps to a commit whose parent is the previous one). -/
def chainStoreABCD : CommitStore := fun h =>
  if h = "D" then some ⟨"t", some "C", "m", "au", 0, none⟩
  else if h = "C" then some ⟨"t", some "B", "m", "au", 0, none⟩
  else if h = "B" then some ⟨"t", some "A", "m", "au", 0, none⟩
  else if h = "A" then some ⟨"t", none, "m", "au", 0, none⟩
  else none

/-- Instance of C3: on the A→B→C, C→D history,
`find_common_ancestor(D, C) = C`. -/
theorem find_common_ancestor_witness :
    find_common_ancestor chainStoreABCD 5 "D" "C" = .ok (some "C") := by
  have h := (find_common_ancestor_spec chainStoreABCD 5 "D" "C"
    ["D", "C", "B", "A"] ["C", "B", "A"] rfl rfl).1
  rw [h]
  rfl

/-- `IsChain store hs`: the hashes `hs` form a parent chain in the
store — each maps to a commit whose parent is the next hash, and the
last commit has a null parent. -/
def IsChain (store : CommitStore) : List String → Prop
  | [] => True
  | [h] => ∃ c, store h = some c ∧ c.parent_hash = none
  | h :: h2 :: rest =>
    (∃ c, store h = some c ∧ c.parent_hash = some h2) ∧
      IsChain store (h2 :: rest)

/-- Unbounded history of a terminating chain: one commit per chain
hash, stamped with its hash, in chain (child-to-ancestor) order. -/
theorem history_of_chain (store : CommitStore) :
    ∀ (hs : List String) (h : String) (fuel k : Nat),
      IsChain store (h :: hs) → hs.length + 1 ≤ fuel →
      ∃ cs, get_commit_history store fuel (some h) none k = .ok cs ∧
        cs.map Commit.hash = (h :: hs).map some := by
  intro hs
  induction hs with
  | nil =>
    intro h fuel k hch hf
    simp only [IsChain] at hch
    obtain ⟨c, hsh, hpar⟩ := hch
    cases fuel with
    | zero => omega
    | succ f =>
      refine ⟨[{ c with hash := some h }], ?_, by simp⟩
      simp [get_commit_history, hsh, hpar]
  | cons h2 hs' ih =>
    intro h fuel k hch hf
    simp only [IsChain] at hch
    obtain ⟨⟨c, hsh, hpar⟩, hch2⟩ := hch
    cases fuel with
    | zero => simp at hf
    | succ f =>
      obtain ⟨cs', hh', hmap'⟩ := ih h2 f (k + 1) hch2 (by simp at hf; omega)
      refine ⟨{ c with hash := some h } :: cs', ?_, by simp [hmap']⟩
      simp [get_commit_history, hsh, hpar, hh']

/-- Commit count of a terminating chain is the chain length. -/
theorem count_of_chain (store : CommitStore) :
    ∀ (hs : List String) (h : String) (fuel : Nat),
      IsChain store (h :: hs) → hs.length + 1 ≤ fuel →
      get_commit_count store fuel (some h) = .ok (hs.length + 1) := by
  intro hs
  induction hs with
  | nil =>
    intro h fuel hch hf
    simp only [IsChain] at hch
    obtain ⟨c, hsh, hpar⟩ := hch
    cases fuel with
    | zero => omega
    | succ f => simp [get_commit_count, hsh, hpar]
  | cons h2 hs' ih =>
    intro h fuel hch hf
    simp only [IsChain] at hch
    obtain ⟨⟨c, hsh, hpar⟩, hch2⟩ := hch
    cases fuel with
    | zero => simp at hf
    | succ f =>
      have := ih h2 f hch2 (by simp at hf; omega)
      simp [get_commit_count, hsh, hpar, this]

/-- A `max_count` of 0 is falsy in Python (`if max_count and ...`), so
a limit of 0 behaves exactly like no limit. -/
theorem history_limit_zero_eq_unbounded (store : CommitStore) :
    ∀ (fuel : Nat) (oh : Option String) (k : Nat),
      get_commit_history store fuel oh (some 0) k =
        get_commit_history store fuel oh none k := by
  intro fuel
  induction fuel with
  | zero =>
    intro oh k
    cases oh <;> rfl
  | succ f ih =>
    intro oh k
    cases oh with
    | none => rfl
    | some h =>
      cases hsh : store h with
      | none => simp [get_commit_history, hsh]
      | some c =>
        simp only [get_commit_history, hsh]
        rw [ih c.parent_hash (k + 1)]
        norm_num

/-- With a positive limit `m` and running counter `k`, limited history
is the `m - k`-prefix of unbounded history. -/
theorem history_limit_take (store : CommitStore) :
    ∀ (fuel : Nat) (oh : Option String) (m k : Nat) (cs : List Commit),
      m ≠ 0 →
      get_commit_history store fuel oh none k = .ok cs →
      get_commit_history store fuel oh (some m) k = .ok (cs.take (m - k)) := by
  intro fuel
  induction fuel with
  | zero =>
    intro oh m k cs hm hun
    cases oh with
    | none =>
      simp only [get_commit_history, Except.ok.injEq] at hun
      subst hun
      simp [get_commit_history]
    | some h => simp [get_commit_history] at hun
  | succ f ih =>
    intro oh m k cs hm hun
    cases oh with
    | none =>
      simp only [get_commit_history, Except.ok.injEq] at hun
      subst hun
      simp [get_commit_history]
    | some h =>
      by_cases hstop : m ≤ k
      · have : (m - k) = 0 := by omega
        rw [this]
        simp [get_commit_history, hm, hstop]
      · cases hsh : store h with
        | none => simp [get_commit_history, hsh] at hun
        | some c =>
          simp only [get_commit_history, hsh] at hun
          cases hrest : get_commit_history store f c.parent_hash none (k + 1) with
          | error e => simp [hrest] at hun
          | ok rest =>
            simp [hrest] at hun
            subst hun
            have hih := ih c.parent_hash m (k + 1) rest hm hrest
            have hcond : ¬(m ≠ 0 ∧ m ≤ k) := fun hc => hstop hc.2
            have hmk : m - k = (m - (k + 1)) + 1 := by omega
            simp [get_commit_history, hsh, hih, hcond, hmk]

/-- C4 counterexample input: a store with a single root commit. -/
def oneCommitStore : CommitStore := fun h =>
  if h = "a" then some ⟨"t", none, "m", "au", 0, none⟩ else none

/-- C4 fails as stated at limit 0: for a 1-commit chain,
`get_commit_history(head, 0)` returns 1 commit, not `min 0 1 = 0`
commits — Python's `if max_count and ...` treats a limit of 0 as
unbounded. -/
theorem history_limit_zero_not_min :
    (get_commit_history oneCommitStore 2 (some "a") (some 0) 0).map
      List.length = .ok 1 ∧
    min 0 1 = 0 ∧ (1 : Nat) ≠ min 0 1 := by
  refine ⟨rfl, rfl, by decide⟩

/-- C4 (amended): for a terminating parent chain of N commits,
unbounded history returns exactly the N commits in child-to-ancestor
order (witnessed by their stamped hashes), `get_commit_count` returns
N, a POSITIVE limit L returns the first `min L N` commits, and a limit
of 0 — being falsy in Python — behaves like no limit, returning all N
commits (not `min 0 N = 0` as the original claim would have it). -/
theorem history_and_count_of_chain (store : CommitStore)
    (h : String) (hs : List String) (fuel : Nat)
    (hch : IsChain store (h :: hs)) (hf : hs.length + 1 ≤ fuel) :
    ∃ cs, get_commit_history store fuel (some h) none 0 = .ok cs ∧
      cs.map Commit.hash = (h :: hs).map some ∧
      cs.length = hs.length + 1 ∧
      get_commit_count store fuel (some h) = .ok (hs.length + 1) ∧
      (∀ L, L ≠ 0 →
        get_commit_history store fuel (some h) (some L) 0 = .ok (cs.take L) ∧
        (cs.take L).length = min L (hs.length + 1)) ∧
      get_commit_history store fuel (some h) (some 0) 0 = .ok cs := by
  obtain ⟨cs, hun, hmap⟩ := history_of_chain store hs h fuel 0 hch hf
  have hlen : cs.length = hs.length + 1 := by
    have := congrArg List.length hmap
    simpa using this
  refine ⟨cs, hun, hmap, hlen, count_of_chain store hs h fuel hch hf, ?_, ?_⟩
  · intro L hL
    have := history_limit_take store fuel (some h) L 0 cs hL hun
    simp only [Nat.sub_zero] at this
    exact ⟨this, by rw [List.length_take, hlen]⟩
  · rw [history_limit_zero_eq_unbounded store fuel (some h) 0]
    exact hun

/-- Store for the C4 witness: chain a → b. -/
def twoCommitStore : CommitStore := fun h =>
  if h = "a" then some ⟨"t", some "b", "m", "au", 0, none⟩
  else if h = "b" then some ⟨"t2", none, "m2", "au", 0, none⟩
  else none

/-- Instance of the amended C4 on the concrete 2-commit chain. -/
theorem history_and_count_of_chain_witness :
    ∃ cs, get_commit_history twoCommitStore 3 (some "a") none 0 = .ok cs ∧
      cs.map Commit.hash = (["a", "b"]).map some ∧
      cs.length = 2 ∧
      get_commit_count twoCommitStore 3 (some "a") = .ok 2 ∧
      (∀ L, L ≠ 0 →
        get_commit_history twoCommitStore 3 (some "a") (some L) 0 = .ok (cs.take L) ∧
        (cs.take L).length = min L 2) ∧
      get_commit_history twoCommitStore 3 (some "a") (some 0) 0 = .ok cs :=
  history_and_count_of_chain twoCommitStore "a" ["b"] 3
    ⟨⟨⟨"t", some "b", "m", "au", 0, none⟩, rfl, rfl⟩,
      ⟨⟨"t2", none, "m2", "au", 0, none⟩, rfl, rfl⟩⟩
    (by simp)

/-- When the ancestor walk fails with `objectNotFound h'`, the missing
hash really is absent from the store, and the traversals that follow
the same parent links (`get_commit_count`, unbounded
`get_commit_history`, `find_common_ancestor` from the same start) fail
with the identical error. -/
theorem traversal_notfound_propagation (store : CommitStore) :
    ∀ (fuel : Nat) (oh : Option String) (h' : String),
      collectAncestors store fuel oh = .error (.objectNotFound h') →
      store h' = none ∧
      get_commit_count store fuel oh = .error (.objectNotFound h') ∧
      ∀ k, get_commit_history store fuel oh none k =
        .error (.objectNotFound h') := by
  intro fuel
  induction fuel with
  | zero =>
    intro oh h' hc
    cases oh with
    | none => simp [collectAncestors] at hc
    | some h => simp [collectAncestors] at hc
  | succ f ih =>
    intro oh h' hc
    cases oh with
    | none => simp [collectAncestors] at hc
    | some h =>
      cases hsh : store h with
      | none =>
        simp only [collectAncestors, hsh, Except.error.injEq,
          VcsError.objectNotFound.injEq] at hc
        subst hc
        exact ⟨hsh, by simp [get_commit_count, hsh],
          fun k => by simp [get_commit_history, hsh]⟩
      | some c =>
        simp only [collectAncestors, hsh] at hc
        cases hrest : collectAncestors store f c.parent_hash with
        | ok rest => simp [hrest] at hc
        | error e =>
          simp only [hrest, Except.error.injEq] at hc
          subst hc
          obtain ⟨habs, hcount, hhist⟩ := ih c.parent_hash h' hrest
          refine ⟨habs, ?_, ?_⟩
          · simp [get_commit_count, hsh, hcount]
          · intro k
            simp [get_commit_history, hsh, hhist (k + 1)]

/-- C8: `retrieve_object` returns the stored payload exactly when the
digest is present and fails with `objectNotFound` exactly when it is
unknown (never substituting a value); `get_commit` does the same at the
commit level; and a missing commit hash on a parent chain makes
`get_commit_count`, unbounded `get_commit_history` and
`find_common_ancestor` all propagate the identical not-found failure. -/
theorem retrieve_notfound_spec :
    (∀ (hs : HashStore) (h p : String),
      (retrieve_object hs h = .ok p ↔ hs.objects.lookup h = some p) ∧
      (retrieve_object hs h = .error (.objectNotFound h) ↔
        hs.objects.lookup h = none)) ∧
    (∀ (store : CommitStore) (h : String),
      store h = none → get_commit store h = .error (.objectNotFound h)) ∧
    (∀ (store : CommitStore) (fuel : Nat) (h h' : String),
      collectAncestors store fuel (some h) = .error (.objectNotFound h') →
      store h' = none ∧
      get_commit_count store fuel (some h) = .error (.objectNotFound h') ∧
      get_commit_history store fuel (some h) none 0 =
        .error (.objectNotFound h') ∧
      ∀ h2, find_common_ancestor store fuel h h2 =
        .error (.objectNotFound h')) := by
  refine ⟨?_, ?_, ?_⟩
  · intro hs h p
    constructor
    · constructor
      · intro hr
        cases hl : hs.objects.lookup h with
        | none => simp [retrieve_object, hl] at hr
        | some v => simpa [retrieve_object, hl] using hr
      · intro hl
        simp [retrieve_object, hl]
    · constructor
      · intro hr
        cases hl : hs.objects.lookup h with
        | none => rfl
        | some v => simp [retrieve_object, hl] at hr
      · intro hl
        simp [retrieve_object, hl]
  · intro store h hnone
    simp [get_commit, hnone]
  · intro store fuel h h' hc
    obtain ⟨habs, hcount, hhist⟩ :=
      traversal_notfound_propagation store fuel (some h) h' hc
    refine ⟨habs, hcount, hhist 0, ?_⟩
    intro h2
    unfold find_common_ancestor
    simp [hc]

/-- A store whose only commit references a parent that was never
stored (a corrupted / partially transferred history). -/
def danglingStore : CommitStore := fun h =>
  if h = "a" then some ⟨"t", some "missing", "m", "au", 0, none⟩ else none

/-- Instance of C8 on the corrupted store: the walk from "a" hits the
absent hash "missing" and every traversal fails with the identical
not-found error. -/
theorem retrieve_notfound_spec_witness :
    get_commit_count danglingStore 3 (some "a") =
      .error (.objectNotFound "missing") ∧
    retrieve_object ⟨[("k", "v")]⟩ "k" = .ok "v" := by
  constructor
  · exact (retrieve_notfound_spec.2.2 danglingStore 3 "a" "missing" rfl).2.1
  · exact ((retrieve_notfound_spec.1 ⟨[("k", "v")]⟩ "k" "v").1).mpr rfl

/-- A predicate counting entries equal to `(k, v)` sees none when no
entry carries the key `k`. -/
theorem countP_entry_eq_zero {l : List (String × String)} {k v : String}
    (h : ∀ e ∈ l, k ≠ e.1) :
    l.countP (fun e => decide (e.1 = k ∧ e.2 = v)) = 0 := by
  rw [List.countP_eq_zero]
  intro e he
  have := h e he
  simp only [decide_eq_true_eq]
  rintro ⟨h1, -⟩
  exact this h1.symm

/-- With pairwise-distinct keys, a present entry `(k, v)` is counted
exactly once. -/
theorem countP_entry_eq_one {l : List (String × String)} {k v : String}
    (hnd : (l.map Prod.fst).Nodup) (hm : (k, v) ∈ l) :
    l.countP (fun e => decide (e.1 = k ∧ e.2 = v)) = 1 := by
  induction l with
  | nil => simp at hm
  | cons e es ih =>
    simp only [List.map_cons, List.nodup_cons, List.mem_map] at hnd
    rw [List.countP_cons]
    rcases List.mem_cons.mp hm with he | hes
    · subst he
      have hz : es.countP (fun e => decide (e.1 = k ∧ e.2 = v)) = 0 := by
        refine countP_entry_eq_zero ?_
        intro e' he' hk
        exact hnd.1 ⟨e', he', hk.symm⟩
      rw [hz]
      simp
    · have hne : e.1 ≠ k := fun hk => hnd.1 ⟨(k, v), hes, by simp [hk]⟩
      have hfalse : (decide (e.1 = k ∧ e.2 = v) : Bool) = false := by
        simp only [decide_eq_false_iff_not]
        rintro ⟨h1, -⟩
        exact hne h1
      rw [hfalse, ih hnd.2 hes]
      simp

/-- C6: storing the same payload twice returns the same identifier both
times, the second call performs no write (the state is unchanged), and
afterwards the store holds exactly one copy of the payload under that
identifier.  Hypotheses: the digest function is collision-free (spec:
collisions are assumed impossible) and the store satisfies the
content-addressing invariants (every entry is keyed by the digest of
its payload; keys are distinct). -/
theorem store_object_idempotent
    (hashFn : String → String) (s : HashStore) (p : String)
    (hinj : Function.Injective hashFn)
    (haddr : ∀ e ∈ s.objects, e.1 = hashFn e.2)
    (hkeys : (s.objects.map Prod.fst).Nodup) :
    (store_object hashFn (store_object hashFn s p).1 p).2 =
      (store_object hashFn s p).2 ∧
    (store_object hashFn (store_object hashFn s p).1 p).1 =
      (store_object hashFn s p).1 ∧
    (store_object hashFn s p).1.objects.countP
      (fun e => decide (e.1 = hashFn p ∧ e.2 = p)) = 1 := by
  cases hcase : s.objects.lookup (hashFn p) with
  | some v =>
    have hmem : (hashFn p, v) ∈ s.objects := by
      rcases List.lookup_eq_some_iff.mp hcase with ⟨l₁, l₂, heq, -⟩
      rw [heq]
      simp
    have hv : v = p := hinj (by simpa using (haddr _ hmem).symm)
    have hmem' : (hashFn p, p) ∈ s.objects := by
      rw [hv] at hmem
      exact hmem
    have h1 : store_object hashFn s p = (s, hashFn p) := by
      simp [store_object, hcase]
    refine ⟨?_, ?_, ?_⟩
    · simp [h1, store_object, hcase]
    · simp [h1, store_object, hcase]
    · rw [h1]
      exact countP_entry_eq_one hkeys hmem'
  | none =>
    have h1 : store_object hashFn s p =
        ({ objects := s.objects ++ [(hashFn p, p)] }, hashFn p) := by
      simp [store_object, hcase]
    have habsent : ∀ e ∈ s.objects, hashFn p ≠ e.1 := by
      intro e he
      have := List.lookup_eq_none_iff.mp hcase e he
      simpa using this
    have h2 : (s.objects ++ [(hashFn p, p)]).lookup (hashFn p) = some p := by
      rw [List.lookup_append, hcase]
      simp
    refine ⟨?_, ?_, ?_⟩
    · rw [h1]
      simp [store_object, h2]
    · rw [h1]
      simp [store_object, h2]
    · rw [h1, List.countP_append, countP_entry_eq_zero habsent]
      simp

/-- Instance of C6 at a concrete digest function, store and payload. -/
theorem store_object_idempotent_witness :
    (store_object id (store_object id ⟨[]⟩ "x").1 "x").2 =
      (store_object id ⟨[]⟩ "x").2 ∧
    (store_object id (store_object id ⟨[]⟩ "x").1 "x").1 =
      (store_object id ⟨[]⟩ "x").1 ∧
    (store_object id ⟨[]⟩ "x").1.objects.countP
      (fun e => decide (e.1 = id "x" ∧ e.2 = "x")) = 1 :=
  store_object_idempotent id ⟨[]⟩ "x" (fun _ _ hab => hab)
    (by simp) (by simp)

/-- C9: absence is `None`, distinct from empty-string content: with base
and theirs absent and ours the empty string, `merge_files` merges the
file with empty content and no conflict, and `perform_merge` records it
as a merged file (it is not dropped as a deletion). -/
theorem empty_string_is_present (path : String) :
    merge_files path none (some "") none = (some "", none) ∧
    perform_merge [path] (fun _ => none) (fun _ => some "") (fun _ => none) =
      ⟨[], [(path, "")], true⟩ := by
  constructor
  · rfl
  · rfl

end MiniGit
